import Mathlib

/-!
Shallow embedding of the NFA regular-language engine of `src/src/nfa.rs`
(repository `reg`), together with proofs about its construction algebra
(`empty`, `unit`, `times`, `plus`, `star`) and its matcher `is_match`.

Modelling conventions:

* A `HashMap<(Node, char), HashSet<Node>>` is modelled as a total function
  `Nat × Char → Finset Nat` together with the explicit key set
  `deltaKeys : Finset (Nat × Char)` (the map's domain).  Every lookup in the
  source goes through `delta.get` followed by `if let Some`, i.e. a missing
  key behaves as the empty set; well-formed models (`WF`) keep the function
  equal to `∅` off the key set, exactly matching that behaviour.
* `HashSet<Node>` is modelled as `Finset Nat`, `String` as `List Char`
  (the matcher iterates the characters of the string via `CharStream::from`).
* The combinators build their transition tables by cloning one table and then
  inserting entries; the functional models below reproduce the final table
  pointwise, with later inserts (the renumbered second operand) taking
  precedence, in the order the source performs them.
* `is_match` (nfa.rs lines 47-87) first runs a thread-spawning preamble
  (lines 48-72) whose computed value `works` is never used; the value the
  function returns is produced entirely by the synchronous subset simulation
  of lines 74-86, which is what `is_match` below models.  The function
  `recfn` (lines 17-45) is never called and is not modelled.
-/

namespace Reg

/-- Modelled from the spec: `src/src/node.rs` (declared as `pub mod node;`) is
not in the snapshot; per spec §3 a `State` is "an integer identifier ...
equality/ordering is numeric identity", and `nfa.rs` only ever uses a node via
its numeric payload `Node(n)` and `n + offset` renumbering, so a node is
modelled as a natural number. -/
abbrev Node := Nat

/-- The automaton of `nfa.rs` lines 9-15: a state count, a starting set, a
transition table and a finished (accepting) set.  `deltaKeys` is the key set
of the `HashMap` `delta`. -/
structure NFA where
  states : Nat
  starting : Finset Nat
  deltaKeys : Finset (Nat × Char)
  delta : Nat × Char → Finset Nat
  finished : Finset Nat

/-- `increase` of `nfa.rs` (lines 91-94, 124-127), lifted to a set of nodes:
renumber every node by `+ off`. -/
def shiftSet (off : Nat) (s : Finset Nat) : Finset Nat :=
  s.image (fun n => n + off)

/-- Renumbering of transition-table keys by `+ off` on the node component. -/
def shiftKeys (off : Nat) (ks : Finset (Nat × Char)) : Finset (Nat × Char) :=
  ks.image (fun p => (p.1 + off, p.2))

/-- Transition table of `plus` (nfa.rs lines 107-112): clone the first table,
then insert every transition of the second with key node and value nodes
renumbered by `+ first.states`; a renumbered insert overwrites on collision. -/
def plusDelta (first second : NFA) : Nat × Char → Finset Nat := fun p =>
  if first.states ≤ p.1 ∧ (p.1 - first.states, p.2) ∈ second.deltaKeys then
    shiftSet first.states (second.delta (p.1 - first.states, p.2))
  else first.delta p

/-- `plus` (union) of nfa.rs lines 90-120. -/
def plus (first second : NFA) : NFA where
  states := first.states + second.states
  starting := first.starting ∪ shiftSet first.states second.starting
  deltaKeys := first.deltaKeys ∪ shiftKeys first.states second.deltaKeys
  delta := plusDelta first second
  finished := first.finished ∪ shiftSet first.states second.finished

/-- Target-set augmentation of `times` (nfa.rs lines 144-147): if a target set
meets `first.finished`, union in the renumbered starting set of `second`. -/
def timesAug (first second : NFA) (set : Finset Nat) : Finset Nat :=
  if ∃ v ∈ set, v ∈ first.finished then
    set ∪ shiftSet first.states second.starting
  else set

/-- Transition table of `times` (nfa.rs lines 140-154): clone the first table,
re-insert every first-table entry with its target set augmented by
`timesAug`, then insert every second-table entry renumbered by
`+ first.states` (these later inserts overwrite on collision). -/
def timesDelta (first second : NFA) : Nat × Char → Finset Nat := fun p =>
  if first.states ≤ p.1 ∧ (p.1 - first.states, p.2) ∈ second.deltaKeys then
    shiftSet first.states (second.delta (p.1 - first.states, p.2))
  else if p ∈ first.deltaKeys then timesAug first second (first.delta p)
  else first.delta p

/-- `times` (concatenation) of nfa.rs lines 122-162. -/
def times (first second : NFA) : NFA where
  states := first.states + second.states
  starting :=
    if ∃ s ∈ first.starting, s ∈ first.finished then
      first.starting ∪ shiftSet first.states second.starting
    else first.starting
  deltaKeys := first.deltaKeys ∪ shiftKeys first.states second.deltaKeys
  delta := timesDelta first second
  finished := shiftSet first.states second.finished

/-- `unit` (literal) of nfa.rs lines 164-171. -/
def unit (ch : Char) : NFA where
  states := 2
  starting := {0}
  deltaKeys := {(0, ch)}
  delta := fun p => if p = (0, ch) then {1} else ∅
  finished := {1}

/-- Target-set augmentation of `star` (nfa.rs lines 177-180): if a target set
meets `nfa.finished`, union in `nfa.starting`. -/
def starAug (nfa : NFA) (set : Finset Nat) : Finset Nat :=
  if ∃ v ∈ set, v ∈ nfa.finished then set ∪ nfa.starting else set

/-- `star` (Kleene closure) of nfa.rs lines 173-193: same states and starting
set, every starting state additionally finished, and every transition whose
target set meets the finished set gains a loop-back into the starting set. -/
def star (nfa : NFA) : NFA where
  states := nfa.states
  starting := nfa.starting
  deltaKeys := nfa.deltaKeys
  delta := fun p => if p ∈ nfa.deltaKeys then starAug nfa (nfa.delta p) else nfa.delta p
  finished := nfa.finished ∪ nfa.starting

/-- `empty` of nfa.rs lines 195-202. -/
def empty : NFA where
  states := 1
  starting := {0}
  deltaKeys := ∅
  delta := fun _ => ∅
  finished := {0}

/-- One step of the subset simulation of `is_match` (nfa.rs lines 76-84): the
new active set is the union, over the active nodes, of the transition table
entries for the consumed character (a missing entry contributes nothing). -/
def stepNodes (nfa : NFA) (nodes : Finset Nat) (ch : Char) : Finset Nat :=
  nodes.biUnion fun n => nfa.delta (n, ch)

/-- The active set after consuming a character list, starting from the
automaton's starting set (nfa.rs lines 74-85). -/
def runNodes (nfa : NFA) (s : List Char) : Finset Nat :=
  s.foldl (stepNodes nfa) nfa.starting

/-- `is_match` (nfa.rs lines 47-87): the returned value, i.e. whether some
active node after consuming the whole input is a finished node (line 86). -/
def is_match (nfa : NFA) (s : List Char) : Bool :=
  decide (∃ n ∈ runNodes nfa s, n ∈ nfa.finished)

/-- The automaton invariant of spec §3, asserted by the repository's own test
helper `test_within_bounds` for `starting` and `finished` and extended to the
transition table: every node appearing in `starting`, `finished`, or in
`delta` as a key node or inside a value set, is `< states`. -/
def Bounded (nfa : NFA) : Prop :=
  (∀ s ∈ nfa.starting, s < nfa.states) ∧
  (∀ s ∈ nfa.finished, s < nfa.states) ∧
  (∀ k ∈ nfa.deltaKeys, k.1 < nfa.states) ∧
  (∀ k ∈ nfa.deltaKeys, ∀ v ∈ nfa.delta k, v < nfa.states)

instance (nfa : NFA) : Decidable (Bounded nfa) := by
  unfold Bounded; infer_instance

/-- Model well-formedness: the function representing the `HashMap` is the
empty set off its key set (a `HashMap` has no value at a missing key, and
every read in the source treats a missing key as the empty set). -/
def WF (nfa : NFA) : Prop :=
  ∀ k, k ∉ nfa.deltaKeys → nfa.delta k = ∅

/-! ## Basic lemmas about the model -/

lemma mem_shiftSet {off : Nat} {s : Finset Nat} {v : Nat} :
    v ∈ shiftSet off s ↔ ∃ m ∈ s, m + off = v := by
  simp [shiftSet]

lemma shift_mem_shiftSet {off : Nat} {s : Finset Nat} {m : Nat} :
    m + off ∈ shiftSet off s ↔ m ∈ s := by
  constructor
  · intro h
    obtain ⟨u, hu, huv⟩ := mem_shiftSet.1 h
    have hum : u = m := by omega
    exact hum ▸ hu
  · intro h
    exact mem_shiftSet.2 ⟨m, h, rfl⟩

lemma shiftSet_lt_of_mem {off : Nat} {s : Finset Nat} {v : Nat}
    (h : v ∈ shiftSet off s) : off ≤ v := by
  obtain ⟨m, _, hm⟩ := mem_shiftSet.1 h
  omega

lemma shiftSet_empty (off : Nat) : shiftSet off (∅ : Finset Nat) = ∅ := by
  simp [shiftSet]

lemma delta_lt (A : NFA) (hA : Bounded A) (hWA : WF A) {n : Nat} {ch : Char}
    {v : Nat} (hv : v ∈ A.delta (n, ch)) : v < A.states := by
  by_cases hk : (n, ch) ∈ A.deltaKeys
  · exact hA.2.2.2 _ hk v hv
  · rw [hWA _ hk] at hv
    exact absurd hv (Finset.not_mem_empty v)

lemma stepNodes_lt (A : NFA) (hA : Bounded A) (hWA : WF A)
    (a : Finset Nat) (ch : Char) : ∀ v ∈ stepNodes A a ch, v < A.states := by
  intro v hv
  obtain ⟨n, _, hv⟩ := Finset.mem_biUnion.1 hv
  exact delta_lt A hA hWA hv

lemma foldl_stepNodes_lt (A : NFA) (hA : Bounded A) (hWA : WF A) :
    ∀ (s : List Char) (a : Finset Nat), (∀ v ∈ a, v < A.states) →
      ∀ v ∈ List.foldl (stepNodes A) a s, v < A.states
  | [], _, ha => ha
  | ch :: s, a, _ =>
      foldl_stepNodes_lt A hA hWA s (stepNodes A a ch) (stepNodes_lt A hA hWA a ch)

lemma runNodes_lt (A : NFA) (hA : Bounded A) (hWA : WF A) (s : List Char) :
    ∀ v ∈ runNodes A s, v < A.states :=
  foldl_stepNodes_lt A hA hWA s A.starting hA.1

lemma stepNodes_union (nfa : NFA) (u v : Finset Nat) (ch : Char) :
    stepNodes nfa (u ∪ v) ch = stepNodes nfa u ch ∪ stepNodes nfa v ch := by
  ext x
  simp only [stepNodes, Finset.mem_biUnion, Finset.mem_union]
  constructor
  · rintro ⟨n, hn | hn, hx⟩
    · exact Or.inl ⟨n, hn, hx⟩
    · exact Or.inr ⟨n, hn, hx⟩
  · rintro (⟨n, hn, hx⟩ | ⟨n, hn, hx⟩)
    · exact ⟨n, Or.inl hn, hx⟩
    · exact ⟨n, Or.inr hn, hx⟩

lemma stepNodes_congr (m1 m2 : NFA) (a : Finset Nat) (ch : Char)
    (h : ∀ n ∈ a, m1.delta (n, ch) = m2.delta (n, ch)) :
    stepNodes m1 a ch = stepNodes m2 a ch :=
  Finset.biUnion_congr rfl fun n hn => h n hn

/-! ## Transition-table lookup lemmas for the combinators -/

lemma plus_delta_low (A B : NFA) {n : Nat} (ch : Char) (hn : n < A.states) :
    (plus A B).delta (n, ch) = A.delta (n, ch) := by
  show plusDelta A B (n, ch) = A.delta (n, ch)
  unfold plusDelta
  dsimp only
  rw [if_neg]
  rintro ⟨h1, _⟩
  omega

lemma plus_delta_shift (A B : NFA) (hA : Bounded A) (hWA : WF A) (hWB : WF B)
    (m : Nat) (ch : Char) :
    (plus A B).delta (m + A.states, ch) = shiftSet A.states (B.delta (m, ch)) := by
  show plusDelta A B (m + A.states, ch) = _
  unfold plusDelta
  dsimp only
  rw [Nat.add_sub_cancel]
  by_cases hk : (m, ch) ∈ B.deltaKeys
  · rw [if_pos ⟨Nat.le_add_left A.states m, hk⟩]
  · rw [if_neg (by rintro ⟨_, h⟩; exact hk h)]
    have hnotA : (m + A.states, ch) ∉ A.deltaKeys := by
      intro hmem
      have h2 : m + A.states < A.states := hA.2.2.1 _ hmem
      omega
    rw [hWA _ hnotA, hWB _ hk, shiftSet_empty]

lemma times_delta_low (A B : NFA) {n : Nat} (ch : Char) (hn : n < A.states) :
    (times A B).delta (n, ch) =
      if (n, ch) ∈ A.deltaKeys then timesAug A B (A.delta (n, ch))
      else A.delta (n, ch) := by
  show timesDelta A B (n, ch) = _
  unfold timesDelta
  dsimp only
  rw [if_neg]
  rintro ⟨h1, _⟩
  omega

lemma times_delta_shift (A B : NFA) (hA : Bounded A) (hWA : WF A) (hWB : WF B)
    (m : Nat) (ch : Char) :
    (times A B).delta (m + A.states, ch) = shiftSet A.states (B.delta (m, ch)) := by
  show timesDelta A B (m + A.states, ch) = _
  unfold timesDelta
  dsimp only
  rw [Nat.add_sub_cancel]
  by_cases hk : (m, ch) ∈ B.deltaKeys
  · rw [if_pos ⟨Nat.le_add_left A.states m, hk⟩]
  · rw [if_neg (by rintro ⟨_, h⟩; exact hk h)]
    have hnotA : (m + A.states, ch) ∉ A.deltaKeys := by
      intro hmem
      have h2 : m + A.states < A.states := hA.2.2.1 _ hmem
      omega
    rw [if_neg hnotA, hWA _ hnotA, hWB _ hk, shiftSet_empty]

lemma times_delta_low_wf (A B : NFA) (hWA : WF A) {n : Nat} (ch : Char)
    (hn : n < A.states) :
    (times A B).delta (n, ch) = timesAug A B (A.delta (n, ch)) := by
  rw [times_delta_low A B ch hn]
  by_cases hk : (n, ch) ∈ A.deltaKeys
  · rw [if_pos hk]
  · rw [if_neg hk, hWA _ hk]
    unfold timesAug
    rw [if_neg]
    rintro ⟨v, hv, _⟩
    exact absurd hv (Finset.not_mem_empty v)

/-! ## Decomposition of the subset simulation on a disjoint union -/

lemma stepNodes_plus_low (A B : NFA) (a : Finset Nat)
    (ha : ∀ v ∈ a, v < A.states) (ch : Char) :
    stepNodes (plus A B) a ch = stepNodes A a ch :=
  stepNodes_congr _ _ a ch fun n hn => plus_delta_low A B ch (ha n hn)

lemma stepNodes_plus_shift (A B : NFA) (hA : Bounded A) (hWA : WF A) (hWB : WF B)
    (b : Finset Nat) (ch : Char) :
    stepNodes (plus A B) (shiftSet A.states b) ch
      = shiftSet A.states (stepNodes B b ch) := by
  ext v
  constructor
  · intro hv
    obtain ⟨n, hn, hvd⟩ := Finset.mem_biUnion.1 hv
    obtain ⟨m, hm, rfl⟩ := mem_shiftSet.1 hn
    rw [plus_delta_shift A B hA hWA hWB m ch] at hvd
    obtain ⟨u, hu, rfl⟩ := mem_shiftSet.1 hvd
    exact mem_shiftSet.2 ⟨u, Finset.mem_biUnion.2 ⟨m, hm, hu⟩, rfl⟩
  · intro hv
    obtain ⟨u, hu, rfl⟩ := mem_shiftSet.1 hv
    obtain ⟨m, hm, hud⟩ := Finset.mem_biUnion.1 hu
    refine Finset.mem_biUnion.2 ⟨m + A.states, mem_shiftSet.2 ⟨m, hm, rfl⟩, ?_⟩
    rw [plus_delta_shift A B hA hWA hWB m ch]
    exact mem_shiftSet.2 ⟨u, hud, rfl⟩

lemma run_plus (A B : NFA) (hA : Bounded A) (hWA : WF A) (hWB : WF B) :
    ∀ (s : List Char) (a b : Finset Nat), (∀ v ∈ a, v < A.states) →
      List.foldl (stepNodes (plus A B)) (a ∪ shiftSet A.states b) s
        = List.foldl (stepNodes A) a s ∪ shiftSet A.states (List.foldl (stepNodes B) b s)
  | [], _, _, _ => rfl
  | ch :: s, a, b, ha => by
      rw [List.foldl_cons, List.foldl_cons, List.foldl_cons, stepNodes_union,
        stepNodes_plus_low A B a ha ch, stepNodes_plus_shift A B hA hWA hWB b ch]
      exact run_plus A B hA hWA hWB s _ _ (stepNodes_lt A hA hWA a ch)

lemma accept_union_shift (A B : NFA) (hA : Bounded A)
    (ra rb : Finset Nat) (hra : ∀ v ∈ ra, v < A.states) :
    ((∃ n ∈ ra ∪ shiftSet A.states rb, n ∈ A.finished ∪ shiftSet A.states B.finished)
      ↔ (∃ n ∈ ra, n ∈ A.finished) ∨ (∃ n ∈ rb, n ∈ B.finished)) := by
  constructor
  · rintro ⟨n, hn, hf⟩
    rcases Finset.mem_union.1 hn with hn | hn
    · rcases Finset.mem_union.1 hf with hf | hf
      · exact Or.inl ⟨n, hn, hf⟩
      · have h1 := hra n hn
        have h2 := shiftSet_lt_of_mem hf
        omega
    · obtain ⟨m, hm, rfl⟩ := mem_shiftSet.1 hn
      rcases Finset.mem_union.1 hf with hf | hf
      · have h1 := hA.2.1 _ hf
        omega
      · exact Or.inr ⟨m, hm, shift_mem_shiftSet.1 hf⟩
  · rintro (⟨n, hn, hf⟩ | ⟨n, hn, hf⟩)
    · exact ⟨n, Finset.mem_union_left _ hn, Finset.mem_union_left _ hf⟩
    · exact ⟨n + A.states, Finset.mem_union_right _ (shift_mem_shiftSet.2 hn),
        Finset.mem_union_right _ (shift_mem_shiftSet.2 hf)⟩

lemma is_match_plus (A B : NFA) (hA : Bounded A)
    (hWA : WF A) (hWB : WF B) (s : List Char) :
    is_match (plus A B) s = (is_match A s || is_match B s) := by
  unfold is_match runNodes
  have hrun : List.foldl (stepNodes (plus A B)) (plus A B).starting s
      = List.foldl (stepNodes A) A.starting s
        ∪ shiftSet A.states (List.foldl (stepNodes B) B.starting s) :=
    run_plus A B hA hWA hWB s A.starting B.starting hA.1
  rw [hrun]
  have hiff := accept_union_shift A B hA
    (List.foldl (stepNodes A) A.starting s) (List.foldl (stepNodes B) B.starting s)
    (foldl_stepNodes_lt A hA hWA s A.starting hA.1)
  have hfin : (plus A B).finished = A.finished ∪ shiftSet A.states B.finished := rfl
  rw [hfin]
  rw [decide_eq_decide.2 hiff]
  exact Bool.decide_or _ _

/-! ## Preservation of the invariants by the construction algebra -/

lemma bounded_empty : Bounded empty := by decide

lemma bounded_unit (ch : Char) : Bounded (unit ch) := by
  refine ⟨?_, ?_, ?_, ?_⟩
  · intro s hs
    have hs0 : s = 0 := Finset.mem_singleton.1 hs
    show s < 2
    omega
  · intro s hs
    have hs1 : s = 1 := Finset.mem_singleton.1 hs
    show s < 2
    omega
  · rintro ⟨n, c⟩ hk
    have hk0 : (n, c) = (0, ch) := Finset.mem_singleton.1 hk
    have hn : n = 0 := congrArg Prod.fst hk0
    show n < 2
    omega
  · rintro ⟨n, c⟩ hk v hv
    have hk0 : (n, c) = (0, ch) := Finset.mem_singleton.1 hk
    show v < 2
    have hd : (unit ch).delta (n, c) = {1} := by
      show (if (n, c) = (0, ch) then ({1} : Finset Nat) else ∅) = {1}
      rw [if_pos hk0]
    rw [hd] at hv
    have hv1 : v = 1 := Finset.mem_singleton.1 hv
    omega

lemma bounded_plus (A B : NFA) (hA : Bounded A) (hB : Bounded B) :
    Bounded (plus A B) := by
  obtain ⟨hA1, hA2, hA3, hA4⟩ := hA
  obtain ⟨hB1, hB2, hB3, hB4⟩ := hB
  refine ⟨?_, ?_, ?_, ?_⟩
  · intro s hs
    rcases Finset.mem_union.1 hs with h | h
    · have := hA1 s h
      show s < A.states + B.states
      omega
    · obtain ⟨m, hm, rfl⟩ := mem_shiftSet.1 h
      have := hB1 m hm
      show m + A.states < A.states + B.states
      omega
  · intro s hs
    rcases Finset.mem_union.1 hs with h | h
    · have := hA2 s h
      show s < A.states + B.states
      omega
    · obtain ⟨m, hm, rfl⟩ := mem_shiftSet.1 h
      have := hB2 m hm
      show m + A.states < A.states + B.states
      omega
  · rintro ⟨n, ch⟩ hk
    rcases Finset.mem_union.1 hk with h | h
    · have := hA3 _ h
      show n < A.states + B.states
      simp only at this
      omega
    · obtain ⟨p, hp, heq⟩ := Finset.mem_image.1 h
      have := hB3 p hp
      have hn : p.1 + A.states = n := congrArg Prod.fst heq
      show n < A.states + B.states
      omega
  · rintro ⟨n, ch⟩ hk v hv
    show v < A.states + B.states
    rcases Finset.mem_union.1 hk with h | h
    · have hn := hA3 _ h
      simp only at hn
      rw [plus_delta_low A B ch hn] at hv
      have := hA4 _ h v hv
      omega
    · obtain ⟨p, hp, heq⟩ := Finset.mem_image.1 h
      have hn : p.1 + A.states = n := congrArg Prod.fst heq
      have hc : p.2 = ch := congrArg Prod.snd heq
      have hd : (plus A B).delta (n, ch) = shiftSet A.states (B.delta (p.1, p.2)) := by
        show plusDelta A B (n, ch) = _
        unfold plusDelta
        dsimp only
        have hg1 : A.states ≤ n := by omega
        have hg2 : n - A.states = p.1 := by omega
        rw [if_pos (show A.states ≤ n ∧ (n - A.states, ch) ∈ B.deltaKeys from
          ⟨hg1, by rw [hg2, ← hc]; exact hp⟩)]
        rw [hg2, ← hc]
      rw [hd] at hv
      obtain ⟨u, hu, rfl⟩ := mem_shiftSet.1 hv
      have := hB4 p hp u (by rw [← Prod.mk.eta (p := p)] at hu; exact hu)
      omega

lemma bounded_times (A B : NFA) (hA : Bounded A) (hB : Bounded B) :
    Bounded (times A B) := by
  have hA3 := hA.2.2.1
  have hB3 := hB.2.2.1
  refine ⟨?_, ?_, ?_, ?_⟩
  · intro s hs
    show s < A.states + B.states
    have hsub : (times A B).starting ⊆ A.starting ∪ shiftSet A.states B.starting := by
      show (if ∃ x ∈ A.starting, x ∈ A.finished then
          A.starting ∪ shiftSet A.states B.starting else A.starting) ⊆ _
      split
      · exact Finset.Subset.refl _
      · exact Finset.subset_union_left
    rcases Finset.mem_union.1 (hsub hs) with h | h
    · have := hA.1 s h
      omega
    · obtain ⟨m, hm, rfl⟩ := mem_shiftSet.1 h
      have := hB.1 m hm
      omega
  · intro s hs
    obtain ⟨m, hm, rfl⟩ := mem_shiftSet.1 hs
    have := hB.2.1 m hm
    show m + A.states < A.states + B.states
    omega
  · rintro ⟨n, ch⟩ hk
    rcases Finset.mem_union.1 hk with h | h
    · have := hA3 _ h
      show n < A.states + B.states
      simp only at this
      omega
    · obtain ⟨p, hp, heq⟩ := Finset.mem_image.1 h
      have := hB3 p hp
      have hn : p.1 + A.states = n := congrArg Prod.fst heq
      show n < A.states + B.states
      omega
  · rintro ⟨n, ch⟩ hk v hv
    show v < A.states + B.states
    rcases Finset.mem_union.1 hk with h | h
    · have hn := hA3 _ h
      simp only at hn
      rw [times_delta_low A B ch hn, if_pos h] at hv
      unfold timesAug at hv
      have hv2 : v ∈ A.delta (n, ch) ∪ shiftSet A.states B.starting := by
        revert hv
        split
        · exact fun hv => hv
        · exact fun hv => Finset.mem_union_left _ hv
      rcases Finset.mem_union.1 hv2 with h2 | h2
      · have := hA.2.2.2 _ h v h2
        omega
      · obtain ⟨m, hm, rfl⟩ := mem_shiftSet.1 h2
        have := hB.1 m hm
        omega
    · obtain ⟨p, hp, heq⟩ := Finset.mem_image.1 h
      have hn : p.1 + A.states = n := congrArg Prod.fst heq
      have hc : p.2 = ch := congrArg Prod.snd heq
      have hd : (times A B).delta (n, ch) = shiftSet A.states (B.delta (p.1, p.2)) := by
        show timesDelta A B (n, ch) = _
        unfold timesDelta
        dsimp only
        have hg1 : A.states ≤ n := by omega
        have hg2 : n - A.states = p.1 := by omega
        rw [if_pos (show A.states ≤ n ∧ (n - A.states, ch) ∈ B.deltaKeys from
          ⟨hg1, by rw [hg2, ← hc]; exact hp⟩)]
        rw [hg2, ← hc]
      rw [hd] at hv
      obtain ⟨u, hu, rfl⟩ := mem_shiftSet.1 hv
      have := hB.2.2.2 p hp u (by rw [← Prod.mk.eta (p := p)] at hu; exact hu)
      omega

lemma bounded_star (A : NFA) (hA : Bounded A) : Bounded (star A) := by
  refine ⟨hA.1, ?_, hA.2.2.1, ?_⟩
  · intro s hs
    rcases Finset.mem_union.1 hs with h | h
    · exact hA.2.1 s h
    · exact hA.1 s h
  · intro k hk v hv
    have hk2 : k ∈ A.deltaKeys := hk
    have hd : (star A).delta k = starAug A (A.delta k) := by
      show (if k ∈ A.deltaKeys then starAug A (A.delta k) else A.delta k) = _
      rw [if_pos hk2]
    rw [hd] at hv
    unfold starAug at hv
    have hv2 : v ∈ A.delta k ∪ A.starting := by
      revert hv
      split
      · exact fun hv => hv
      · exact fun hv => Finset.mem_union_left _ hv
    rcases Finset.mem_union.1 hv2 with h2 | h2
    · exact hA.2.2.2 _ hk2 v h2
    · exact hA.1 v h2

lemma wf_empty : WF empty := fun _ _ => rfl

lemma wf_unit (ch : Char) : WF (unit ch) := by
  intro k hk
  show (if k = (0, ch) then ({1} : Finset Nat) else ∅) = ∅
  rw [if_neg]
  intro h
  exact hk (Finset.mem_singleton.2 h)

lemma wf_plus (A B : NFA) (hWA : WF A) : WF (plus A B) := by
  rintro ⟨n, ch⟩ hk
  have hku : (n, ch) ∉ A.deltaKeys ∪ shiftKeys A.states B.deltaKeys := hk
  rw [Finset.mem_union, not_or] at hku
  obtain ⟨hk1, hk2⟩ := hku
  show plusDelta A B (n, ch) = ∅
  unfold plusDelta
  dsimp only
  rw [if_neg, hWA _ hk1]
  rintro ⟨h1, h2⟩
  refine hk2 (Finset.mem_image.2 ⟨(n - A.states, ch), h2, ?_⟩)
  show (n - A.states + A.states, ch) = (n, ch)
  rw [Nat.sub_add_cancel h1]

lemma wf_times (A B : NFA) (hWA : WF A) : WF (times A B) := by
  rintro ⟨n, ch⟩ hk
  have hku : (n, ch) ∉ A.deltaKeys ∪ shiftKeys A.states B.deltaKeys := hk
  rw [Finset.mem_union, not_or] at hku
  obtain ⟨hk1, hk2⟩ := hku
  show timesDelta A B (n, ch) = ∅
  unfold timesDelta
  dsimp only
  rw [if_neg, if_neg hk1, hWA _ hk1]
  rintro ⟨h1, h2⟩
  refine hk2 (Finset.mem_image.2 ⟨(n - A.states, ch), h2, ?_⟩)
  show (n - A.states + A.states, ch) = (n, ch)
  rw [Nat.sub_add_cancel h1]

lemma wf_star (A : NFA) (hWA : WF A) : WF (star A) := by
  intro k hk
  have hk2 : k ∉ A.deltaKeys := hk
  show (if k ∈ A.deltaKeys then starAug A (A.delta k) else A.delta k) = ∅
  rw [if_neg hk2, hWA _ hk2]

/-! ## Concatenation with the `empty` automaton -/

lemma accept_shift (r f : Finset Nat) (k : Nat) :
    ((∃ n ∈ shiftSet k r, n ∈ shiftSet k f) ↔ ∃ n ∈ r, n ∈ f) := by
  constructor
  · rintro ⟨n, hn, hf⟩
    obtain ⟨m, hm, rfl⟩ := mem_shiftSet.1 hn
    exact ⟨m, hm, shift_mem_shiftSet.1 hf⟩
  · rintro ⟨n, hn, hf⟩
    exact ⟨n + k, shift_mem_shiftSet.2 hn, shift_mem_shiftSet.2 hf⟩

lemma accept_zero_shift (r f : Finset Nat) :
    ((∃ n ∈ {0} ∪ shiftSet 1 r, n ∈ shiftSet 1 f) ↔ ∃ n ∈ r, n ∈ f) := by
  constructor
  · rintro ⟨n, hn, hf⟩
    obtain ⟨m, hm, rfl⟩ := mem_shiftSet.1 hf
    rcases Finset.mem_union.1 hn with h | h
    · have h0 : m + 1 = 0 := Finset.mem_singleton.1 h
      omega
    · exact ⟨m, shift_mem_shiftSet.1 h, hm⟩
  · rintro ⟨n, hn, hf⟩
    exact ⟨n + 1, Finset.mem_union_right _ (shift_mem_shiftSet.2 hn),
      shift_mem_shiftSet.2 hf⟩

lemma times_empty_delta_zero (A : NFA) (ch : Char) :
    (times empty A).delta (0, ch) = ∅ := by
  show timesDelta empty A (0, ch) = ∅
  unfold timesDelta
  dsimp only
  rw [if_neg (by rintro ⟨h1, _⟩; exact absurd h1 (by decide))]
  have hk : (0, ch) ∉ empty.deltaKeys := Finset.not_mem_empty _
  rw [if_neg hk]
  rfl

lemma times_empty_delta_shift (A : NFA) (hWA : WF A) (m : Nat) (ch : Char) :
    (times empty A).delta (m + 1, ch) = shiftSet 1 (A.delta (m, ch)) :=
  times_delta_shift empty A bounded_empty wf_empty hWA m ch

lemma stepNodes_times_empty_shift (A : NFA) (hWA : WF A)
    (b : Finset Nat) (ch : Char) :
    stepNodes (times empty A) (shiftSet 1 b) ch
      = shiftSet 1 (stepNodes A b ch) := by
  ext v
  constructor
  · intro hv
    obtain ⟨n, hn, hvd⟩ := Finset.mem_biUnion.1 hv
    obtain ⟨m, hm, rfl⟩ := mem_shiftSet.1 hn
    rw [times_empty_delta_shift A hWA m ch] at hvd
    obtain ⟨u, hu, rfl⟩ := mem_shiftSet.1 hvd
    exact mem_shiftSet.2 ⟨u, Finset.mem_biUnion.2 ⟨m, hm, hu⟩, rfl⟩
  · intro hv
    obtain ⟨u, hu, rfl⟩ := mem_shiftSet.1 hv
    obtain ⟨m, hm, hud⟩ := Finset.mem_biUnion.1 hu
    refine Finset.mem_biUnion.2 ⟨m + 1, mem_shiftSet.2 ⟨m, hm, rfl⟩, ?_⟩
    rw [times_empty_delta_shift A hWA m ch]
    exact mem_shiftSet.2 ⟨u, hud, rfl⟩

lemma run_times_empty (A : NFA) (hWA : WF A) :
    ∀ (s : List Char) (b : Finset Nat),
      List.foldl (stepNodes (times empty A)) (shiftSet 1 b) s
        = shiftSet 1 (List.foldl (stepNodes A) b s)
  | [], _ => rfl
  | ch :: s, b => by
      rw [List.foldl_cons, List.foldl_cons, stepNodes_times_empty_shift A hWA b ch]
      exact run_times_empty A hWA s _

lemma is_match_empty_times (A : NFA) (hWA : WF A) (s : List Char) :
    is_match (times empty A) s = is_match A s := by
  unfold is_match
  apply decide_eq_decide.2
  unfold runNodes
  have hstart : (times empty A).starting = {0} ∪ shiftSet 1 A.starting := by
    show (if ∃ x ∈ empty.starting, x ∈ empty.finished then
        empty.starting ∪ shiftSet empty.states A.starting else empty.starting) = _
    rw [if_pos ⟨0, by decide, by decide⟩]
    rfl
  have hfin : (times empty A).finished = shiftSet 1 A.finished := rfl
  rw [hstart, hfin]
  cases s with
  | nil =>
      simp only [List.foldl_nil]
      exact accept_zero_shift A.starting A.finished
  | cons ch rest =>
      rw [List.foldl_cons, List.foldl_cons, stepNodes_union]
      have h1 : stepNodes (times empty A) {0} ch = ∅ := by
        rw [stepNodes, Finset.singleton_biUnion, times_empty_delta_zero A ch]
      rw [h1, Finset.empty_union, stepNodes_times_empty_shift A hWA A.starting ch,
        run_times_empty A hWA rest _]
      exact accept_shift _ _ 1

lemma times_right_delta_low (A : NFA) (hWA : WF A)
    (n : Nat) (hn : n < A.states) (ch : Char) :
    (times A empty).delta (n, ch)
      = A.delta (n, ch) ∪ (if ∃ v ∈ A.delta (n, ch), v ∈ A.finished
          then {A.states} else ∅) := by
  rw [times_delta_low_wf A empty hWA ch hn]
  unfold timesAug
  have hsh : shiftSet A.states empty.starting = {A.states} := by
    show shiftSet A.states {0} = {A.states}
    simp [shiftSet]
  by_cases hc : ∃ v ∈ A.delta (n, ch), v ∈ A.finished
  · rw [if_pos hc, if_pos hc, hsh]
  · rw [if_neg hc, if_neg hc, Finset.union_empty]

lemma times_right_delta_top (A : NFA) (hA : Bounded A) (hWA : WF A) (ch : Char) :
    (times A empty).delta (A.states, ch) = ∅ := by
  show timesDelta A empty (A.states, ch) = ∅
  unfold timesDelta
  dsimp only
  rw [if_neg (by rintro ⟨_, h2⟩; exact Finset.not_mem_empty _ h2)]
  have hk : (A.states, ch) ∉ A.deltaKeys := by
    intro hmem
    have h2 : A.states < A.states := hA.2.2.1 _ hmem
    omega
  rw [if_neg hk, hWA _ hk]

lemma stepNodes_times_right (A : NFA) (hA : Bounded A) (hWA : WF A)
    (a : Finset Nat) (ha : ∀ v ∈ a, v < A.states) (ch : Char) :
    stepNodes (times A empty)
        (a ∪ (if ∃ v ∈ a, v ∈ A.finished then {A.states} else ∅)) ch
      = stepNodes A a ch
        ∪ (if ∃ v ∈ stepNodes A a ch, v ∈ A.finished then {A.states} else ∅) := by
  rw [stepNodes_union]
  have h2 : stepNodes (times A empty)
      (if ∃ v ∈ a, v ∈ A.finished then {A.states} else ∅) ch = ∅ := by
    split
    · rw [stepNodes, Finset.singleton_biUnion, times_right_delta_top A hA hWA ch]
    · rfl
  rw [h2, Finset.union_empty]
  ext v
  constructor
  · intro hv
    obtain ⟨n, hn, hvd⟩ := Finset.mem_biUnion.1 hv
    rw [times_right_delta_low A hWA n (ha n hn) ch] at hvd
    rcases Finset.mem_union.1 hvd with h | h
    · exact Finset.mem_union_left _ (Finset.mem_biUnion.2 ⟨n, hn, h⟩)
    · revert h
      split
      · intro h
        rename_i hc
        obtain ⟨u, hu1, hu2⟩ := hc
        have hv0 : v = A.states := Finset.mem_singleton.1 h
        refine Finset.mem_union_right _ ?_
        rw [if_pos ⟨u, Finset.mem_biUnion.2 ⟨n, hn, hu1⟩, hu2⟩]
        exact Finset.mem_singleton.2 hv0
      · intro h
        exact absurd h (Finset.not_mem_empty v)
  · intro hv
    rcases Finset.mem_union.1 hv with h | h
    · obtain ⟨n, hn, hvd⟩ := Finset.mem_biUnion.1 h
      refine Finset.mem_biUnion.2 ⟨n, hn, ?_⟩
      rw [times_right_delta_low A hWA n (ha n hn) ch]
      exact Finset.mem_union_left _ hvd
    · revert h
      split
      · intro h
        rename_i hc
        obtain ⟨u, hu1, hu2⟩ := hc
        obtain ⟨n, hn, hun⟩ := Finset.mem_biUnion.1 hu1
        refine Finset.mem_biUnion.2 ⟨n, hn, ?_⟩
        rw [times_right_delta_low A hWA n (ha n hn) ch]
        refine Finset.mem_union_right _ ?_
        rw [if_pos ⟨u, hun, hu2⟩]
        exact h
      · intro h
        exact absurd h (Finset.not_mem_empty v)

lemma run_times_right (A : NFA) (hA : Bounded A) (hWA : WF A) :
    ∀ (s : List Char) (a : Finset Nat), (∀ v ∈ a, v < A.states) →
      List.foldl (stepNodes (times A empty))
          (a ∪ (if ∃ v ∈ a, v ∈ A.finished then {A.states} else ∅)) s
        = List.foldl (stepNodes A) a s
          ∪ (if ∃ v ∈ List.foldl (stepNodes A) a s, v ∈ A.finished
              then {A.states} else ∅)
  | [], _, _ => rfl
  | ch :: s, a, ha => by
      rw [List.foldl_cons, List.foldl_cons, stepNodes_times_right A hA hWA a ha ch]
      exact run_times_right A hA hWA s _ (stepNodes_lt A hA hWA a ch)

lemma accept_times_right (A : NFA) (ra : Finset Nat)
    (hra : ∀ v ∈ ra, v < A.states) :
    ((∃ n ∈ ra ∪ (if ∃ v ∈ ra, v ∈ A.finished then {A.states} else ∅),
        n ∈ (times A empty).finished)
      ↔ ∃ n ∈ ra, n ∈ A.finished) := by
  have hfin : (times A empty).finished = {A.states} := by
    show shiftSet A.states empty.finished = {A.states}
    show shiftSet A.states {0} = {A.states}
    simp [shiftSet]
  rw [hfin]
  constructor
  · rintro ⟨n, hn, hf⟩
    have hn0 : n = A.states := Finset.mem_singleton.1 hf
    subst hn0
    rcases Finset.mem_union.1 hn with h | h
    · have := hra _ h
      omega
    · by_cases hc : ∃ v ∈ ra, v ∈ A.finished
      · exact hc
      · rw [if_neg hc] at h
        exact absurd h (Finset.not_mem_empty _)
  · intro hc
    refine ⟨A.states, Finset.mem_union_right _ ?_, Finset.mem_singleton.2 rfl⟩
    rw [if_pos hc]
    exact Finset.mem_singleton.2 rfl

lemma is_match_times_empty (A : NFA) (hA : Bounded A) (hWA : WF A)
    (s : List Char) :
    is_match (times A empty) s = is_match A s := by
  unfold is_match
  apply decide_eq_decide.2
  unfold runNodes
  have hstart : (times A empty).starting
      = A.starting ∪ (if ∃ v ∈ A.starting, v ∈ A.finished
          then {A.states} else ∅) := by
    show (if ∃ x ∈ A.starting, x ∈ A.finished then
        A.starting ∪ shiftSet A.states empty.starting else A.starting) = _
    have hsh : shiftSet A.states empty.starting = {A.states} := by
      show shiftSet A.states {0} = {A.states}
      simp [shiftSet]
    by_cases hc : ∃ x ∈ A.starting, x ∈ A.finished
    · rw [if_pos hc, if_pos hc, hsh]
    · rw [if_neg hc, if_neg hc, Finset.union_empty]
  rw [hstart, run_times_right A hA hWA s A.starting hA.1]
  exact accept_times_right A _ (foldl_stepNodes_lt A hA hWA s A.starting hA.1)

/-! ## Claim theorems -/

/-- C1: at the failing input of the claim (the `empty()` automaton and the
empty input, where the source's channel-wait preamble can block forever), the
value computed by the result-determining subset simulation of nfa.rs lines
74-86 is the definite boolean `true`. -/
theorem is_match_empty_nil : is_match empty [] = true := by decide

/-- C2: for valid operands, the transition table of `times A B` (concatenation)
consists of exactly: every transition of `A` with `renumber(B.starting)`
unioned into the target set if and only if the target set meets `A.finished`;
every transition of `B` with key node and value nodes renumbered by
`+ A.states`; and nothing else (the key set is exactly the union of `A`'s keys
and `B`'s renumbered keys).  The finished set is exactly
`renumber(B.finished)`. -/
theorem times_table_characterization (A B : NFA) (hA : Bounded A)
    (_hB : Bounded B) :
    (times A B).finished = shiftSet A.states B.finished
    ∧ (times A B).deltaKeys = A.deltaKeys ∪ shiftKeys A.states B.deltaKeys
    ∧ (∀ k ∈ A.deltaKeys, (times A B).delta k
        = (if ∃ v ∈ A.delta k, v ∈ A.finished
            then A.delta k ∪ shiftSet A.states B.starting else A.delta k))
    ∧ (∀ k ∈ B.deltaKeys, (times A B).delta (k.1 + A.states, k.2)
        = shiftSet A.states (B.delta k)) := by
  refine ⟨rfl, rfl, ?_, ?_⟩
  · rintro ⟨n, ch⟩ hk
    have hn : n < A.states := hA.2.2.1 _ hk
    rw [times_delta_low A B ch hn, if_pos hk]
    rfl
  · rintro ⟨n, ch⟩ hk
    show timesDelta A B (n + A.states, ch) = _
    unfold timesDelta
    dsimp only
    rw [Nat.add_sub_cancel]
    rw [if_pos ⟨Nat.le_add_left A.states n, hk⟩]

/-- Witness for C2 at the concrete operands `unit 'a'` and `unit 'b'`. -/
theorem times_table_characterization_witness :
    (times (unit 'a') (unit 'b')).finished
      = shiftSet (unit 'a').states (unit 'b').finished :=
  (times_table_characterization (unit 'a') (unit 'b') (by decide) (by decide)).1

/-- C3: the starting set of `times A B` is `A.starting`, with
`renumber(B.starting)` unioned in if and only if some state of `A.starting`
also lies in `A.finished` — the test is membership of a starting state in the
finished set, not a reachability condition. -/
theorem times_starting_characterization (A B : NFA) (hA : Bounded A)
    (hne : B.starting.Nonempty) :
    ((times A B).starting
      = (if ∃ s ∈ A.starting, s ∈ A.finished
          then A.starting ∪ shiftSet A.states B.starting else A.starting))
    ∧ (shiftSet A.states B.starting ⊆ (times A B).starting
        ↔ ∃ s ∈ A.starting, s ∈ A.finished) := by
  refine ⟨rfl, ?_, ?_⟩
  · intro hsub
    by_contra hc
    have hstart : (times A B).starting = A.starting := by
      show (if ∃ s ∈ A.starting, s ∈ A.finished then
        A.starting ∪ shiftSet A.states B.starting else A.starting) = _
      rw [if_neg hc]
    obtain ⟨b, hb⟩ := hne
    have hmem : b + A.states ∈ (times A B).starting :=
      hsub (shift_mem_shiftSet.2 hb)
    rw [hstart] at hmem
    have := hA.1 _ hmem
    omega
  · intro hc
    have hstart : (times A B).starting
        = A.starting ∪ shiftSet A.states B.starting := by
      show (if ∃ s ∈ A.starting, s ∈ A.finished then
        A.starting ∪ shiftSet A.states B.starting else A.starting) = _
      rw [if_pos hc]
    rw [hstart]
    exact Finset.subset_union_right

/-- Witness for C3 at the concrete operands `unit 'a'` and `unit 'b'`. -/
theorem times_starting_characterization_witness :
    (shiftSet (unit 'a').states (unit 'b').starting
        ⊆ (times (unit 'a') (unit 'b')).starting)
      ↔ ∃ s ∈ (unit 'a').starting, s ∈ (unit 'a').finished :=
  (times_starting_characterization (unit 'a') (unit 'b')
    (by decide) (by decide)).2

/-- C4: at the failing input, `star` applied to the valid, algebra-produced
automaton `times (star (unit 'a')) (unit 'b')` (language `a*b`) accepts the
single-character input "a", although "a" is neither empty nor decomposable
into non-empty parts accepted by the operand (the only candidate part, "a"
itself, is rejected), so the constructed automaton accepts strictly more than
`{ε} ∪ L(A) ∪ L(A)·L(A) ∪ ...`. -/
theorem star_over_accepts :
    is_match (star (times (star (unit 'a')) (unit 'b'))) (['a']) = true
    ∧ is_match (times (star (unit 'a')) (unit 'b')) (['a']) = false :=
  ⟨by decide, by decide⟩

/-- C5: for valid operands, `is_match` on the union automaton `plus A B`
agrees with the disjunction of the component matchers on every input, and the
union adds no edges beyond `A`'s table and `B`'s renumbered table. -/
theorem plus_is_match_union (A B : NFA) (hA : Bounded A) (_hB : Bounded B)
    (hWA : WF A) (hWB : WF B) :
    (∀ s, is_match (plus A B) s = (is_match A s || is_match B s))
    ∧ (plus A B).deltaKeys = A.deltaKeys ∪ shiftKeys A.states B.deltaKeys
    ∧ (∀ k ∈ A.deltaKeys, (plus A B).delta k = A.delta k)
    ∧ (∀ k ∈ B.deltaKeys, (plus A B).delta (k.1 + A.states, k.2)
        = shiftSet A.states (B.delta k)) := by
  refine ⟨fun s => is_match_plus A B hA hWA hWB s, rfl, ?_, ?_⟩
  · rintro ⟨n, ch⟩ hk
    have hn : n < A.states := hA.2.2.1 _ hk
    exact plus_delta_low A B ch hn
  · rintro ⟨n, ch⟩ hk
    show plusDelta A B (n + A.states, ch) = _
    unfold plusDelta
    dsimp only
    rw [Nat.add_sub_cancel]
    rw [if_pos ⟨Nat.le_add_left A.states n, hk⟩]

/-- Witness for C5 at the concrete operands `unit 'a'`, `unit 'b'` and the
input "b". -/
theorem plus_is_match_union_witness :
    is_match (plus (unit 'a') (unit 'b')) (['b'])
      = (is_match (unit 'a') (['b']) || is_match (unit 'b') (['b'])) :=
  (plus_is_match_union (unit 'a') (unit 'b') (by decide) (by decide)
    (wf_unit 'a') (wf_unit 'b')).1 (['b'])

/-- C6: every automaton produced by the five algebra entry points from
operands satisfying the state-bound invariant itself satisfies it: every
state in its starting set, finished set, or transition table (as key node or
in a value set) is strictly below its state count. -/
theorem algebra_preserves_bounded :
    Bounded empty
    ∧ (∀ ch : Char, Bounded (unit ch))
    ∧ (∀ A B : NFA, Bounded A → Bounded B → Bounded (times A B))
    ∧ (∀ A B : NFA, Bounded A → Bounded B → Bounded (plus A B))
    ∧ (∀ A : NFA, Bounded A → Bounded (star A)) :=
  ⟨bounded_empty, bounded_unit, bounded_times, bounded_plus, bounded_star⟩

/-- Witness for C6 at the concrete automaton `star (times (unit 'a') (unit 'b'))`. -/
theorem algebra_preserves_bounded_witness :
    Bounded (star (times (unit 'a') (unit 'b'))) :=
  algebra_preserves_bounded.2.2.2.2 _
    (algebra_preserves_bounded.2.2.1 _ _ (by decide) (by decide))

/-- C7 counterexample: no designated wildcard symbol exists such that the
matcher's step equals, on every valid automaton, the union over active states
of the literal transitions and the wildcard transitions: for any candidate
symbol `w`, the automaton `unit w` and an input character different from `w`
separate the two step functions. -/
theorem step_has_no_wildcard :
    ¬ ∃ w : Char, ∀ (nfa : NFA), Bounded nfa → WF nfa →
      ∀ (active : Finset Nat) (ch : Char),
        stepNodes nfa active ch
          = active.biUnion (fun n => nfa.delta (n, ch) ∪ nfa.delta (n, w)) := by
  rintro ⟨w, h⟩
  have hch : (if w = 'a' then 'b' else 'a') ≠ w := by
    by_cases hw : w = 'a'
    · rw [if_pos hw, hw]
      decide
    · rw [if_neg hw]
      exact fun hEq => hw hEq.symm
  have h2 := h (unit w) (bounded_unit w) (wf_unit w) {0}
    (if w = 'a' then 'b' else 'a')
  have hL : stepNodes (unit w) {0} (if w = 'a' then 'b' else 'a') = ∅ := by
    rw [stepNodes, Finset.singleton_biUnion]
    apply wf_unit w
    intro hmem
    have hp := Finset.mem_singleton.1 hmem
    exact hch (congrArg Prod.snd hp)
  rw [hL] at h2
  have h3 : (1 : Nat) ∈ ({0} : Finset Nat).biUnion
      (fun n => (unit w).delta (n, (if w = 'a' then 'b' else 'a'))
        ∪ (unit w).delta (n, w)) := by
    rw [Finset.singleton_biUnion]
    refine Finset.mem_union_right _ ?_
    show (1 : Nat) ∈ (if ((0 : Nat), w) = (0, w) then ({1} : Finset Nat) else ∅)
    rw [if_pos rfl]
    exact Finset.mem_singleton.2 rfl
  rw [← h2] at h3
  exact absurd h3 (Finset.not_mem_empty 1)

/-- C7 amended: at each step of the matcher, the new active set is the union
over the active states of the transitions for the consumed literal character
alone — the transition table is keyed by plain characters and no wildcard
symbol exists — and an empty active set stays empty for the rest of the
input. -/
theorem matcher_step_literal_only :
    (∀ (nfa : NFA) (active : Finset Nat) (ch : Char),
        stepNodes nfa active ch = active.biUnion fun n => nfa.delta (n, ch))
    ∧ (∀ (nfa : NFA) (s : List Char), List.foldl (stepNodes nfa) ∅ s = ∅) := by
  refine ⟨fun _ _ _ => rfl, fun nfa s => ?_⟩
  induction s with
  | nil => rfl
  | cons ch rest ih =>
      rw [List.foldl_cons]
      have h0 : stepNodes nfa ∅ ch = ∅ := rfl
      rw [h0]
      exact ih

/-- C8: at the failing input, star is not idempotent at the language level:
for the valid, algebra-produced automaton
`plus (times (star (unit 'a')) (unit 'b')) (unit 'c')` (language `a*b | c`),
`star (star A)` accepts the input "ac" while `star A` rejects it. -/
theorem star_star_not_idempotent :
    is_match (star (star (plus (times (star (unit 'a')) (unit 'b'))
        (unit 'c')))) (['a', 'c']) = true
    ∧ is_match (star (plus (times (star (unit 'a')) (unit 'b'))
        (unit 'c'))) (['a', 'c']) = false :=
  ⟨by decide, by decide⟩

/-- C9: at the failing input of the claim (the automaton `unit 'a'` and the
input "a", on which the source spawns one thread per starting state before
simulating), the value computed by the synchronous subset simulation of
nfa.rs lines 74-86 is `true`. -/
theorem is_match_unit_single : is_match (unit 'a') (['a']) = true := by decide

/-- C10: the `empty()` automaton is a two-sided identity for concatenation at
the language level: for every valid automaton `A` and every input,
`is_match (times empty A)` and `is_match (times A empty)` agree with
`is_match A`. -/
theorem empty_times_identity (A : NFA) (hA : Bounded A) (hWA : WF A) :
    (∀ s, is_match (times empty A) s = is_match A s)
    ∧ (∀ s, is_match (times A empty) s = is_match A s) :=
  ⟨fun s => is_match_empty_times A hWA s,
   fun s => is_match_times_empty A hA hWA s⟩

/-- Witness for C10 at the concrete automaton `unit 'a'` and the input "a". -/
theorem empty_times_identity_witness :
    is_match (times empty (unit 'a')) (['a']) = is_match (unit 'a') (['a'])
    ∧ is_match (times (unit 'a') empty) (['a']) = is_match (unit 'a') (['a']) :=
  ⟨(empty_times_identity (unit 'a') (by decide) (wf_unit 'a')).1 (['a']),
   (empty_times_identity (unit 'a') (by decide) (wf_unit 'a')).2 (['a'])⟩

end Reg
